import Mathlib

/-!
Verification of the obelisk manifest core: a shallow embedding of the
manifest data model and operations from `src/obelisk` (manifest.py,
commits.py, scanner.py, filtering.py, filetypes/json.py,
filetypes/binary.py), together with theorems settling the spec claims.

Modelling conventions:
* Python `dict[str, Any]` values are embedded as insertion-ordered
  association structures (`JsonObj`, `List (String × _)`); `None`/absent
  optional fields are `Option.none`.
* The MD5 digest (`hashlib.md5(...).hexdigest()`, an external library
  call) is a parameter `md5hex : List Nat → String` of every definition
  that hashes; the byte sequence fed to it is modelled exactly
  (UTF-8 encoding for text, raw bytes for binary files).
* File-system reads are modelled by passing the file's bytes and the
  result of `json.load` on them explicitly (`DirEntry`); `_load_json`
  returns `none` exactly when the Python helper returns `None`.
* The JSON text codec between `write_manifest` and `parse_manifest`
  (pydantic `model_validate_json` / `save_as_json`) is modelled as the
  identity on the dumped structure, so `write_manifest` produces the
  `ManifestFile` structure and `parse_manifest` consumes one.
-/

/-! ### JSON values (Python objects produced by `json.load`) -/

mutual

inductive Json where
  | null : Json
  | boolean (b : Bool) : Json
  | num (n : Int) : Json
  | str (s : String) : Json
  | arr (elems : JsonArr) : Json
  | obj (fields : JsonObj) : Json
deriving DecidableEq, Repr

inductive JsonArr where
  | nil : JsonArr
  | cons (hd : Json) (tl : JsonArr) : JsonArr
deriving DecidableEq, Repr

inductive JsonObj where
  | nil : JsonObj
  | cons (key : String) (val : Json) (tl : JsonObj) : JsonObj
deriving DecidableEq, Repr

end

/-- Python `dict.get(k)` on a JSON object (keys are unique in a dict). -/
def JsonObj.get : JsonObj → String → Option Json
  | .nil, _ => none
  | .cons k v tl, target => if k = target then some v else JsonObj.get tl target

/-- The dict comprehension `{k: v for k, v in data.items() if k != target}`. -/
def JsonObj.excludeKey (target : String) : JsonObj → JsonObj
  | .nil => .nil
  | .cons k v tl =>
      if k = target then JsonObj.excludeKey target tl
      else .cons k v (JsonObj.excludeKey target tl)

/-- Replace the value stored under `target`, leaving every other pair
unchanged (a JSON object with `target` absent is left untouched). -/
def JsonObj.setKey (target : String) (newVal : Json) : JsonObj → JsonObj
  | .nil => .nil
  | .cons k v tl =>
      if k = target then .cons k newVal (JsonObj.setKey target newVal tl)
      else .cons k v (JsonObj.setKey target newVal tl)

/-! ### `json.dumps(..., separators=(",", ":"), ensure_ascii=False)` -/

/-- Lower-case hexadecimal digit. -/
def hexDigit (n : Nat) : Char :=
  if n < 10 then Char.ofNat (n + 48) else Char.ofNat (n + 87)

/-- Four-digit hexadecimal rendering used by the `\uXXXX` escape. -/
def hex4 (n : Nat) : String :=
  String.mk [hexDigit (n / 4096 % 16), hexDigit (n / 256 % 16),
             hexDigit (n / 16 % 16), hexDigit (n % 16)]

/-- JSON string-character escaping as `json.dumps` performs it with
`ensure_ascii=False` (quote, backslash and control characters only). -/
def escapeJsonChar (c : Char) : String :=
  if c = '"' then "\\\""
  else if c = '\\' then "\\\\"
  else if c = '\n' then "\\n"
  else if c = '\t' then "\\t"
  else if c = '\r' then "\\r"
  else if c = Char.ofNat 8 then "\\b"
  else if c = Char.ofNat 12 then "\\f"
  else if c.toNat < 32 then "\\u" ++ hex4 c.toNat
  else String.singleton c

/-- A JSON string literal with its surrounding quotes. -/
def quoteJson (s : String) : String :=
  "\"" ++ String.join (s.data.map escapeJsonChar) ++ "\""

mutual

/-- Compact serialization: `json.dumps(v, separators=(",", ":"),
ensure_ascii=False)` — insertion-ordered keys, no whitespace. -/
def Json.dumps : Json → String
  | .null => "null"
  | .boolean true => "true"
  | .boolean false => "false"
  | .num n => toString n
  | .str s => quoteJson s
  | .arr xs => "[" ++ String.intercalate "," (JsonArr.dumpsParts xs) ++ "]"
  | .obj fs => "\x7b" ++ String.intercalate "," (JsonObj.dumpsParts fs) ++ "\x7d"

def JsonArr.dumpsParts : JsonArr → List String
  | .nil => []
  | .cons x xs => Json.dumps x :: JsonArr.dumpsParts xs

def JsonObj.dumpsParts : JsonObj → List String
  | .nil => []
  | .cons k v fs => (quoteJson k ++ ":" ++ Json.dumps v) :: JsonObj.dumpsParts fs

end

/-- UTF-8 encoding of one Unicode code point. -/
def utf8EncodeCodepoint (n : Nat) : List Nat :=
  if n < 128 then [n]
  else if n < 2048 then [192 + n / 64, 128 + n % 64]
  else if n < 65536 then [224 + n / 4096, 128 + n / 64 % 64, 128 + n % 64]
  else [240 + n / 262144, 128 + n / 4096 % 64, 128 + n / 64 % 64, 128 + n % 64]

/-- Python `s.encode("utf-8")` as a byte list. -/
def encodeUtf8 (s : String) : List Nat :=
  (s.data.map (fun c => utf8EncodeCodepoint c.toNat)).flatten

/-! ### Manifest data model (`manifest.py`) -/

/-- `ManifestEntry` (pydantic model): one file's recorded state. -/
structure ManifestEntry where
  filename : String
  version : Option String := none
  hash : Option String := none
  format : Option String := none
  mod : Option JsonObj := none
  metadata : Option JsonObj := none
deriving DecidableEq, Repr

/-- `RawManifestEntry`: the per-file record stored inside a manifest file
(`none` models a field omitted from the JSON). -/
structure RawManifestEntry where
  version : Option String := none
  hash : Option String := none
  format : Option String := none
  mod : Option JsonObj := none
  metadata : Option JsonObj := none
deriving DecidableEq, Repr

/-- `ManifestFile`: the on-disk manifest structure; `files` is an
insertion-ordered dict from filename to raw record. -/
structure ManifestFile where
  version : Option String := none
  format : Option String := none
  files : List (String × RawManifestEntry)
deriving DecidableEq, Repr

/-- Python string dict `get`: value at the first matching key. -/
def dict_get {α : Type} (d : List (String × α)) (k : String) : Option α :=
  (d.find? (fun p => p.1 == k)).map (fun p => p.2)

/-- Python dict item assignment `d[k] = v`: replaces the value in place
when the key exists, else appends the pair at the end. -/
def dict_insert {α : Type} (d : List (String × α)) (k : String) (v : α) :
    List (String × α) :=
  if d.any (fun p => p.1 == k) then
    d.map (fun p => if p.1 == k then (k, v) else p)
  else d ++ [(k, v)]

/-- Python `a or b` on optional strings (`None` and `""` are falsy). -/
def py_or_str (a b : Option String) : Option String :=
  match a with
  | some s => if s = "" then b else some s
  | none => b

/-- Python string `<`: lexicographic comparison of code points, a
proper prefix comparing less. -/
def chars_lt : List Char → List Char → Bool
  | [], [] => false
  | [], _ :: _ => true
  | _ :: _, [] => false
  | a :: as, b :: bs =>
      if a < b then true
      else if b < a then false
      else chars_lt as bs

/-- Python `s < t` on strings. -/
def py_str_lt (s t : String) : Bool := chars_lt s.data t.data

/-- Python `s.startswith((c, ...))` for single-character prefixes, which
also models `s[:1] in (c, ...)`. -/
def first_char_in (name : String) (cs : List Char) : Bool :=
  match name.data with
  | c :: _ => cs.contains c
  | [] => false

/-- Stable insertion of an entry into a filename-sorted list (models the
placement performed by Python's stable `list.sort(key=filename)`). -/
def insert_by_filename (e : ManifestEntry) : List ManifestEntry → List ManifestEntry
  | [] => [e]
  | x :: xs =>
      if py_str_lt x.filename e.filename then x :: insert_by_filename e xs
      else e :: x :: xs

/-- `entries.sort(key=attrgetter("filename"))`: stable sort by filename. -/
def sort_by_filename : List ManifestEntry → List ManifestEntry
  | [] => []
  | x :: xs => insert_by_filename x (sort_by_filename xs)

/-- `parse_manifest`: propagate the top-level format to entries where the
per-file format is falsy (`entry.format or global_format`), then sort the
entries by filename. -/
def parse_manifest (mf : ManifestFile) : List ManifestEntry :=
  let entries := mf.files.map (fun p =>
    { filename := p.1
      version := p.2.version
      hash := p.2.hash
      format := py_or_str p.2.format mf.format
      mod := p.2.mod
      metadata := p.2.metadata : ManifestEntry })
  sort_by_filename entries

/-- The generator `(entry.format for entry in entries if entry.format)`:
formats that are present and truthy (non-empty). -/
def truthy_formats (entries : List ManifestEntry) : List String :=
  entries.filterMap (fun e =>
    match e.format with
    | some s => if s = "" then none else some s
    | none => none)

/-- Distinct values in first-occurrence order — the iteration order of
`Counter`'s underlying dict. -/
def counter_keys (l : List String) : List String :=
  l.foldl (fun acc s => if acc.contains s then acc else acc ++ [s]) []

/-- First value attaining the maximal score, scanning left to right
(models `heapq.nlargest(1, ...)`'s stable tie-breaking). -/
def arg_max_first (f : String → Nat) : List String → Option String
  | [] => none
  | x :: xs =>
      match arg_max_first f xs with
      | none => some x
      | some y => if f y > f x then some y else some x

/-- `Counter(l).most_common(1)`: the most frequent value, ties broken by
first occurrence; `none` for an empty counter. -/
def most_common1 (l : List String) : Option String :=
  arg_max_first (fun s => l.count s) (counter_keys l)

/-- `write_manifest`: promote the most common truthy format to the top
level, omit the per-file format where it equals the promoted one, and
build the `files` dict in entry order. -/
def write_manifest (entries : List ManifestEntry) : ManifestFile :=
  let global_format := most_common1 (truthy_formats entries)
  let files := entries.foldl (fun fs e =>
    let raw : RawManifestEntry :=
      { version := e.version
        hash := e.hash
        format := if e.format ≠ global_format then e.format else none
        mod := e.mod
        metadata := e.metadata }
    dict_insert fs e.filename raw) []
  { version := none, format := global_format, files := files }

/-- `manifest_match`: equal length and pairwise-equal entries. -/
def manifest_match (a b : List ManifestEntry) : Bool :=
  if a.length ≠ b.length then false
  else (a.zip b).all (fun p => p.1 == p.2)

/-! ### Diff engine and renderer (`commits.py`) -/

/-- `_ChangeSets`: added entries, removed entries, (before, after) pairs. -/
structure ChangeSets where
  added : List ManifestEntry
  removed : List ManifestEntry
  updated : List (ManifestEntry × ManifestEntry)
deriving DecidableEq, Repr

/-- The dict `{e.filename: e for e in l}` (later duplicates overwrite). -/
def to_file_map (l : List ManifestEntry) : List (String × ManifestEntry) :=
  l.foldl (fun d e => dict_insert d e.filename e) []

/-- `_diff_entries`: classify by filename into added / updated / removed. -/
def _diff_entries (before after : List ManifestEntry) : ChangeSets :=
  let before_map := to_file_map before
  let after_map := to_file_map after
  { added := after_map.filterMap (fun p =>
      if (dict_get before_map p.1).isNone then some p.2 else none)
    updated := after_map.filterMap (fun p =>
      match dict_get before_map p.1 with
      | some b_entry => if b_entry ≠ p.2 then some (b_entry, p.2) else none
      | none => none)
    removed := before_map.filterMap (fun p =>
      if (dict_get after_map p.1).isNone then some p.2 else none) }

/-- `_fmt_version`: `f"v{v}" if v else "no version"`. -/
def _fmt_version : Option String → String
  | some v => if v = "" then "no version" else "v" ++ v
  | none => "no version"

/-- Python truthiness of an optional string. -/
def truthy_str : Option String → Bool
  | some s => s ≠ ""
  | none => false

/-! Natural sort (`natsorted(..., alg=ns.IGNORECASE)`): split each string
into maximal digit / non-digit runs; digit runs compare by numeric value,
other runs compare case-insensitively. -/

/-- Maximal runs of characters agreeing on `isDigit`. -/
def split_runs : List Char → List (List Char)
  | [] => []
  | c :: cs =>
      match split_runs cs with
      | [] => [[c]]
      | [] :: rest => [c] :: rest
      | (d :: ds) :: rest =>
          if c.isDigit == d.isDigit then (c :: d :: ds) :: rest
          else [c] :: (d :: ds) :: rest

/-- One comparison unit of a natural-sort key. -/
inductive NatChunk where
  | numChunk (n : Nat) : NatChunk
  | strChunk (cs : List Char) : NatChunk
deriving DecidableEq, Repr

/-- Numeric value of a digit run. -/
def digits_to_nat (cs : List Char) : Nat :=
  cs.foldl (fun a c => a * 10 + (c.toNat - 48)) 0

/-- Natural-sort key of a string (digit runs as numbers, other runs
lower-cased). -/
def nat_key (s : String) : List NatChunk :=
  (split_runs s.data).map (fun run =>
    match run with
    | [] => .strChunk []
    | c :: cs =>
        if c.isDigit then .numChunk (digits_to_nat (c :: cs))
        else .strChunk ((c :: cs).map Char.toLower))

/-- Strict comparison of key chunks (numbers sort before text). -/
def chunk_lt : NatChunk → NatChunk → Bool
  | .numChunk a, .numChunk b => a < b
  | .strChunk a, .strChunk b => decide (a < b)
  | .numChunk _, .strChunk _ => true
  | .strChunk _, .numChunk _ => false

/-- Lexicographic comparison of chunk lists. -/
def chunks_le : List NatChunk → List NatChunk → Bool
  | [], _ => true
  | _ :: _, [] => false
  | a :: as, b :: bs =>
      if chunk_lt a b then true
      else if chunk_lt b a then false
      else chunks_le as bs

/-- Natural-sort "less or equal" on strings. -/
def nat_le (s t : String) : Bool := chunks_le (nat_key s) (nat_key t)

/-- Stable insertion for the natural sort. -/
def nat_insert (x : String) : List String → List String
  | [] => [x]
  | y :: ys => if nat_le x y then x :: y :: ys else y :: nat_insert x ys

/-- `natsorted(lines, alg=ns.IGNORECASE)`: stable natural sort. -/
def natsorted : List String → List String
  | [] => []
  | x :: xs => nat_insert x (natsorted xs)

/-- The line rendered for one added entry. -/
def added_line (e : ManifestEntry) : String :=
  if truthy_str e.version then
    "* " ++ e.filename ++ " (" ++ _fmt_version e.version ++ ")"
  else "* " ++ e.filename

/-- The line rendered for one updated (before, after) pair. -/
def updated_line (p : ManifestEntry × ManifestEntry) : String :=
  if p.1.version ≠ p.2.version then
    "* " ++ p.2.filename ++ " (" ++ _fmt_version p.2.version ++ ")"
  else "* " ++ p.2.filename

/-- `build_file_change_list`: titled Added / Updated / Removed blocks,
each natural-sorted, joined by blank lines; empty buckets are skipped. -/
def build_file_change_list (before after : List ManifestEntry) : String :=
  let changes := _diff_entries before after
  let sections : List (List String) :=
    (if changes.added ≠ [] then
      [["Added:"] ++ natsorted (changes.added.map added_line)] else [])
    ++ (if changes.updated ≠ [] then
      [["Updated:"] ++ natsorted (changes.updated.map updated_line)] else [])
    ++ (if changes.removed ≠ [] then
      [["Removed:"] ++ natsorted (changes.removed.map (fun e => "* " ++ e.filename))] else [])
  String.intercalate "\n\n" (sections.map (fun block => String.intercalate "\n" block))

/-! ### Metadata extractors (`filetypes/json.py`, `filetypes/binary.py`) -/

/-- `_only_string`: the value when it is a string, else `None`. -/
def _only_string : Option Json → Option String
  | some (.str s) => some s
  | _ => none

/-- `_only_dict`: the value when it is a dict, else `None`. -/
def _only_dict : Option Json → Option JsonObj
  | some (.obj fields) => some fields
  | _ => none

/-- `_hash_json_content`: hash the compact serialization of the object
with its top-level `version` key removed; the suffix is the character
length of the normalized string. -/
def _hash_json_content (md5hex : List Nat → String) (data : JsonObj) : String :=
  let filtered := JsonObj.excludeKey "version" data
  let normalized := Json.dumps (Json.obj filtered)
  let digest := md5hex (encodeUtf8 normalized)
  "md5json:" ++ digest ++ ":" ++ toString normalized.length

/-- `get_metadata_from_json` applied to the result of `_load_json`
(`none` models the Python `None` returned on a JSON decode failure). -/
def get_metadata_from_json (md5hex : List Nat → String) (filename : String)
    (loaded : Option Json) : Option ManifestEntry :=
  match loaded with
  | none => none
  | some (.obj data_dict) =>
      let version := _only_string (data_dict.get "version")
      let format := _only_string (data_dict.get "format")
      let metadata := _only_dict (data_dict.get "metadata")
      let mod := _only_dict (data_dict.get "mod")
      match version with
      | none => none
      | some v =>
          if v = "" then none
          else some { filename := filename
                      version := some v
                      hash := some (_hash_json_content md5hex data_dict)
                      format := format
                      metadata := metadata
                      mod := mod }
  | some _ => none

/-- `get_metadata_from_binary`: MD5 of the whole byte sequence plus the
byte length; every other field left at `None`. -/
def get_metadata_from_binary (md5hex : List Nat → String) (filename : String)
    (content : List Nat) : ManifestEntry :=
  { filename := filename
    hash := some ("md5:" ++ md5hex content ++ ":" ++ toString content.length) }

/-! ### File filter and folder scanner (`filtering.py`, `scanner.py`) -/

/-- One immediate child of the scanned folder: its bare name, whether it
is a directory, its raw bytes, and the result of `json.load` on them. -/
structure DirEntry where
  name : String
  isDir : Bool
  content : List Nat := []
  loaded : Option Json := none
deriving Repr

/-- `PurePath.suffix`: the extension of the bare name, dot included;
empty when there is no dot, the name starts with its only dot, or the
dot is the final character. -/
def path_suffix (name : String) : String :=
  match (name.data.enum.filter (fun p => p.2 = '.')).getLast? with
  | some p => if 0 < p.1 ∧ p.1 < name.data.length - 1 then
      String.mk (name.data.drop p.1) else ""
  | none => ""

/-- `str.lstrip(".")`. -/
def lstrip_dots (s : String) : String :=
  String.mk (s.data.dropWhile (fun c => c = '.'))

/-- The closed set of extractor kinds of the static dispatch table. -/
inductive HandlerKind where
  | jsonKind : HandlerKind
  | binaryKind : HandlerKind
deriving DecidableEq, Repr

/-- `registered_types`: extension → extractor, a static table. -/
def registered_types : List (String × HandlerKind) :=
  [("json", .jsonKind), ("jsonc", .jsonKind),
   ("png", .binaryKind), ("jpg", .binaryKind), ("jpeg", .binaryKind)]

/-- `allowed_types`: the registered-extensions set. -/
def allowed_types : List String := registered_types.map (fun p => p.1)

/-- Invoke the extractor of the given kind on a directory child. -/
def run_handler (md5hex : List Nat → String) :
    HandlerKind → DirEntry → Option ManifestEntry
  | .jsonKind, f => get_metadata_from_json md5hex f.name f.loaded
  | .binaryKind, f => some (get_metadata_from_binary md5hex f.name f.content)

/-- `file_is_allowed`: not a directory, bare name not starting with `.`
or `_`, extension (no leading dot, as written) registered. -/
def file_is_allowed (file : DirEntry) : Bool :=
  if file.isDir then false
  else if first_char_in file.name ['.', '_'] then false
  else if !(allowed_types.contains (lstrip_dots (path_suffix file.name))) then false
  else true

/-- `create_manifest_from_folder` applied to the children enumerated by
`folder_path.glob("*.*")`, in enumeration order: skip hidden/underscore
names and directories, dispatch on the extension as written, append the
extractor's entry when it produces one. The result is NOT sorted. -/
def create_manifest_from_folder (md5hex : List Nat → String)
    (children : List DirEntry) : List ManifestEntry :=
  children.foldl (fun acc file =>
    let filename := file.name
    let extension := lstrip_dots (path_suffix filename)
    if first_char_in filename ['.', '_'] || file.isDir then acc
    else
      match dict_get registered_types extension with
      | none => acc
      | some kind =>
          match run_handler md5hex kind file with
          | none => acc
          | some entry => acc ++ [entry]) []

/-! ### Properties used as hypotheses of the claims -/

/-- The entry list is sorted by filename (no later filename is strictly
below an earlier one, in Python's string order). -/
abbrev SortedByFilename (l : List ManifestEntry) : Prop :=
  l.Pairwise (fun a b => py_str_lt b.filename a.filename = false)

/-- The filenames of the list are pairwise distinct. -/
abbrev UniqueFilenames (l : List ManifestEntry) : Prop :=
  (l.map (fun e => e.filename)).Nodup

/-- All formats present (non-null) across the entries, in entry order,
including empty strings — the spec's words for the promotion input
("the most frequent non-null `format` value across all entries"). -/
def non_null_formats (entries : List ManifestEntry) : List String :=
  entries.filterMap (fun e => e.format)

/-- The promotion rule as the spec words it: most frequent non-null
format value, ties broken by the first-encountered value. -/
def spec_most_frequent_non_null_format (entries : List ManifestEntry) : Option String :=
  most_common1 (non_null_formats entries)

/-- Closed-form recursion for first-occurrence deduplication, used to
reason about `counter_keys`. -/
def dedup_first : List String → List String
  | [] => []
  | x :: xs => x :: (dedup_first xs).filter (fun s => s ≠ x)

/-- The raw record `write_manifest` stores for one entry, given the
promoted top-level format. -/
def write_raw_entry (gf : Option String) (e : ManifestEntry) : RawManifestEntry :=
  { version := e.version
    hash := e.hash
    format := if e.format ≠ gf then e.format else none
    mod := e.mod
    metadata := e.metadata }

/-- The entry `parse_manifest` reconstructs from one stored pair, given
the top-level format of the manifest file. -/
def parsed_entry (gf : Option String) (p : String × RawManifestEntry) : ManifestEntry :=
  { filename := p.1
    version := p.2.version
    hash := p.2.hash
    format := py_or_str p.2.format gf
    mod := p.2.mod
    metadata := p.2.metadata }

/-! ## Order lemmas for Python string comparison -/

theorem chars_lt_irrefl : ∀ l : List Char, chars_lt l l = false
  | [] => rfl
  | c :: cs => by simp [chars_lt, chars_lt_irrefl cs]

theorem chars_lt_asymm : ∀ a b : List Char, chars_lt a b = true → chars_lt b a = false
  | [], [] => by simp [chars_lt]
  | [], _ :: _ => fun _ => rfl
  | _ :: _, [] => by simp [chars_lt]
  | a :: as, b :: bs => by
      intro h
      simp only [chars_lt] at h ⊢
      by_cases h1 : a < b
      · simp [h1, asymm h1]
      · by_cases h2 : b < a
        · simp [h1, h2] at h
        · have hab : a = b := le_antisymm (not_lt.mp h2) (not_lt.mp h1)
          subst hab
          simp [h1, h2] at h ⊢
          exact chars_lt_asymm as bs h

theorem chars_eq_of_not_lt : ∀ a b : List Char,
    chars_lt a b = false → chars_lt b a = false → a = b
  | [], [] => fun _ _ => rfl
  | [], _ :: _ => by simp [chars_lt]
  | _ :: _, [] => by simp [chars_lt]
  | a :: as, b :: bs => by
      intro h1 h2
      simp only [chars_lt] at h1 h2
      by_cases hab : a < b
      · simp [hab] at h1
      · by_cases hba : b < a
        · simp [hab, hba] at h2
        · have : a = b := le_antisymm (not_lt.mp hba) (not_lt.mp hab)
          subst this
          simp [hab] at h1 h2
          rw [chars_eq_of_not_lt as bs h1 h2]

theorem py_str_lt_irrefl (s : String) : py_str_lt s s = false :=
  chars_lt_irrefl s.data

theorem py_str_lt_asymm {s t : String} (h : py_str_lt s t = true) :
    py_str_lt t s = false :=
  chars_lt_asymm s.data t.data h

theorem py_str_eq_of_not_lt {s t : String}
    (h1 : py_str_lt s t = false) (h2 : py_str_lt t s = false) : s = t := by
  cases s with
  | mk ds =>
      cases t with
      | mk dt => exact congrArg String.mk (chars_eq_of_not_lt ds dt h1 h2)

/-! ## Sorting lemmas -/

theorem mem_insert_by_filename {e a : ManifestEntry} :
    ∀ {l : List ManifestEntry}, a ∈ insert_by_filename e l ↔ a = e ∨ a ∈ l
  | [] => by simp [insert_by_filename]
  | x :: xs => by
      cases hb : py_str_lt x.filename e.filename with
      | true =>
          simp [insert_by_filename, hb, mem_insert_by_filename (l := xs)]
          tauto
      | false =>
          simp [insert_by_filename, hb]

theorem mem_sort_by_filename {a : ManifestEntry} :
    ∀ {l : List ManifestEntry}, a ∈ sort_by_filename l ↔ a ∈ l
  | [] => Iff.rfl
  | x :: xs => by
      simp [sort_by_filename, mem_insert_by_filename, mem_sort_by_filename (l := xs)]

theorem insert_by_filename_eq_cons {e : ManifestEntry} :
    ∀ {l : List ManifestEntry},
      (∀ x ∈ l, py_str_lt x.filename e.filename = false) →
      insert_by_filename e l = e :: l
  | [] => fun _ => rfl
  | x :: xs => fun h => by
      rw [insert_by_filename, h x (List.mem_cons_self x xs)]
      rfl

theorem sort_by_filename_of_sorted :
    ∀ {l : List ManifestEntry}, SortedByFilename l → sort_by_filename l = l
  | [] => fun _ => rfl
  | x :: xs => fun h => by
      have h' := List.pairwise_cons.mp h
      simp only [sort_by_filename, sort_by_filename_of_sorted h'.2]
      exact insert_by_filename_eq_cons h'.1

theorem mem_nat_insert {s a : String} :
    ∀ {l : List String}, a ∈ nat_insert s l ↔ a = s ∨ a ∈ l
  | [] => by simp [nat_insert]
  | y :: ys => by
      cases hb : nat_le s y with
      | true =>
          simp [nat_insert, hb]
      | false =>
          simp [nat_insert, hb, mem_nat_insert (l := ys)]
          tauto

theorem mem_natsorted {a : String} :
    ∀ {l : List String}, a ∈ natsorted l ↔ a ∈ l
  | [] => Iff.rfl
  | x :: xs => by
      simp [natsorted, mem_nat_insert, mem_natsorted (l := xs)]

/-! ## JSON hashing lemma -/

theorem excludeKey_setKey (t : String) (v : Json) :
    ∀ o : JsonObj, JsonObj.excludeKey t (JsonObj.setKey t v o) = JsonObj.excludeKey t o
  | .nil => rfl
  | .cons k val tl => by
      by_cases h : k = t
      · simp [JsonObj.setKey, JsonObj.excludeKey, h, excludeKey_setKey t v tl]
      · simp [JsonObj.setKey, JsonObj.excludeKey, h, excludeKey_setKey t v tl]

/-! ## Claim C5 -/

/-- C5: changing only the value of the top-level `version` key of a JSON
object (every other key and value unchanged) does not change the content
hash string computed by `_hash_json_content`, for any digest function. -/
theorem C5_hash_ignores_version_value (md5hex : List Nat → String)
    (data : JsonObj) (newVal : Json) :
    _hash_json_content md5hex (JsonObj.setKey "version" newVal data) =
      _hash_json_content md5hex data := by
  unfold _hash_json_content
  rw [excludeKey_setKey]

/-! ## Claim C7 -/

/-- C7: the binary extractor returns an entry whose hash is exactly
`"md5:" ++ digest ++ ":" ++ length` (no trailing colon) and whose
version, format, mod and metadata fields are all absent. -/
theorem C7_binary_extractor_contract (md5hex : List Nat → String)
    (filename : String) (content : List Nat) :
    get_metadata_from_binary md5hex filename content =
      { filename := filename
        version := none
        hash := some ("md5:" ++ md5hex content ++ ":" ++ toString content.length)
        format := none
        mod := none
        metadata := none } := rfl

/-! ## Claim C3 -/

/-- C3 (code bug): the scanner emits entries in enumeration order and
never sorts —

on the enumeration [c.json, b.json, a.json] (all valid JSON files) the
output filenames are exactly [c.json, b.json, a.json], although
b.json < c.json and a.json < b.json in byte order, so the list is not
sorted by filename as the claim (and the repository's own scanner test)
requires. -/
theorem C3_scanner_output_in_enumeration_order :
    (create_manifest_from_folder (fun _ => "")
      [{ name := "c.json", isDir := false, content := [],
         loaded := some (.obj (.cons "version" (.str "1") .nil)) },
       { name := "b.json", isDir := false, content := [],
         loaded := some (.obj (.cons "version" (.str "2") .nil)) },
       { name := "a.json", isDir := false, content := [],
         loaded := some (.obj (.cons "version" (.str "3") .nil)) }]).map
        (fun e => e.filename) = ["c.json", "b.json", "a.json"] ∧
    py_str_lt "b.json" "c.json" = true ∧
    py_str_lt "a.json" "b.json" = true := by
  refine ⟨by decide, by decide, by decide⟩

/-! ## Claim C4 -/

/-- C4 (counterexample): a file whose JSON parses to the object
`{"version": ""}` — the top-level value is an object and its `version`
field is present and string-typed — is nevertheless rejected, because
`if not version` treats the empty string as missing. -/
theorem C4_counterexample :
    _only_string (JsonObj.get (.cons "version" (.str "") .nil) "version") = some "" ∧
    get_metadata_from_json (fun _ => "") "f.json"
      (some (Json.obj (.cons "version" (.str "") .nil))) = none := by
  refine ⟨rfl, rfl⟩

/-- C4 (amended): the structured extractor returns an entry iff the
parsed value is an object whose `version` field is a non-empty string;
it rejects on parse failure, non-object top level, missing or
non-string version, and additionally on an empty-string version. -/
theorem C4_structured_rejection_characterization (md5hex : List Nat → String)
    (filename : String) (loaded : Option Json) :
    (get_metadata_from_json md5hex filename loaded).isSome = true ↔
      ∃ kvs v, loaded = some (Json.obj kvs) ∧
        _only_string (JsonObj.get kvs "version") = some v ∧ v ≠ "" := by
  cases loaded with
  | none => simp [get_metadata_from_json]
  | some d =>
      cases d with
      | obj kvs =>
          simp only [get_metadata_from_json]
          cases hv : _only_string (JsonObj.get kvs "version") with
          | none => simp [hv]
          | some v =>
              by_cases hv' : v = ""
              · subst hv'
                simp [hv]
              · simp [hv, hv']
      | null => simp [get_metadata_from_json]
      | boolean b => simp [get_metadata_from_json]
      | num n => simp [get_metadata_from_json]
      | str s => simp [get_metadata_from_json]
      | arr xs => simp [get_metadata_from_json]

/-! ## Claim C8 -/

/-- C8 (counterexample): for the updated pair whose versions differ with
the after-version absent (before `version="1"`, after `version=None`,
hash changed), the rendered Updated block line is
`* b.json (no version)` — neither `* b.json` alone nor any
`* b.json (v...)` form, refuting the claimed line shape. -/
theorem C8_counterexample :
    (_diff_entries
        [{ filename := "b.json", version := some "1", hash := some "abc" }]
        [{ filename := "b.json", version := none, hash := some "def" }]).updated =
      [({ filename := "b.json", version := some "1", hash := some "abc" },
        { filename := "b.json", version := none, hash := some "def" })] ∧
    (some "1" : Option String) ≠ none ∧
    build_file_change_list
        [{ filename := "b.json", version := some "1", hash := some "abc" }]
        [{ filename := "b.json", version := none, hash := some "def" }] =
      "Updated:\n* b.json (no version)" ∧
    "Updated:\n* b.json (no version)" ≠ "Updated:\n* b.json" := by
  refine ⟨by decide, by decide, by decide, by decide⟩

/-- C8 (amended): every updated pair contributes its line to the Updated
block; when the versions are equal the line is exactly `* <filename>`,
and when they differ it is `* <filename> (<fmt>)` where `<fmt>` is
`v<after-version>` for a non-empty after-version and `no version` when
the after-version is absent or empty. -/
theorem C8_updated_line_shape (before after : List ManifestEntry)
    (b a : ManifestEntry)
    (hmem : (b, a) ∈ (_diff_entries before after).updated) :
    updated_line (b, a) ∈
        natsorted ((_diff_entries before after).updated.map updated_line) ∧
    (b.version = a.version → updated_line (b, a) = "* " ++ a.filename) ∧
    (b.version ≠ a.version →
      updated_line (b, a) =
        "* " ++ a.filename ++ " (" ++ _fmt_version a.version ++ ")") := by
  refine ⟨?_, ?_, ?_⟩
  · exact mem_natsorted.mpr (List.mem_map.mpr ⟨(b, a), hmem, rfl⟩)
  · intro h
    simp [updated_line, h]
  · intro h
    simp [updated_line, h]

/-- C8 witness: the amended theorem applied to a concrete one-file update
whose version changes from "1" to "2". -/
theorem C8_witness :
    updated_line ({ filename := "b.json", version := some "1" },
        { filename := "b.json", version := some "2" }) = "* b.json (v2)" := by
  have h := C8_updated_line_shape
    [{ filename := "b.json", version := some "1" }]
    [{ filename := "b.json", version := some "2" }]
    { filename := "b.json", version := some "1" }
    { filename := "b.json", version := some "2" } (by decide)
  rw [h.2.2 (by decide)]
  rfl

/-! ## Claim C9 -/

/-- C9 (counterexample): the file `a.JSON` — whose extension differs only
in letter case from the registered `json` — is rejected by the filter and
has no registered extractor, although the lower-cased extension is
registered; the claim predicts it would be allowed and dispatched. -/
theorem C9_counterexample :
    file_is_allowed { name := "a.JSON", isDir := false, content := [], loaded := none } = false ∧
    dict_get registered_types (lstrip_dots (path_suffix "a.JSON")) = none ∧
    dict_get registered_types
        (String.mk ((lstrip_dots (path_suffix "a.JSON")).data.map Char.toLower)) =
      some HandlerKind.jsonKind := by
  refine ⟨by decide, by decide, by decide⟩

/-- C9 (amended): extension handling is case-sensitive — the filter and
the scanner dispatch use the extension exactly as written, so `a.JSON`
is disallowed and never dispatched (for any file content) while `a.json`
is allowed and dispatched to the JSON extractor. -/
theorem C9_extension_handling_case_sensitive (md5hex : List Nat → String)
    (bytes : List Nat) (loaded : Option Json) :
    file_is_allowed { name := "a.JSON", isDir := false, content := bytes, loaded := loaded } = false ∧
    create_manifest_from_folder md5hex
      [{ name := "a.JSON", isDir := false, content := bytes, loaded := loaded }] = [] ∧
    file_is_allowed { name := "a.json", isDir := false, content := bytes, loaded := loaded } = true ∧
    dict_get registered_types (lstrip_dots (path_suffix "a.JSON")) = none ∧
    dict_get registered_types (lstrip_dots (path_suffix "a.json")) = some HandlerKind.jsonKind := by
  refine ⟨rfl, rfl, rfl, rfl, rfl⟩

/-! ## Claim C10 -/

/-- C10 (counterexample): when the top-level format is itself the empty
string, a per-file record with `format = ""` yields an entry whose
format is the empty string — refuting the claim's "never the empty
string" while still equalling the top-level format. -/
theorem C10_counterexample :
    (parse_manifest
      { version := none, format := some "",
        files := [("a.json",
          { version := none, hash := none, format := some "",
            mod := none, metadata := none })] }).map (fun e => e.format) =
      [some ""] := by
  decide

/-- C10 (amended): a per-file record whose format field is present but
equal to the empty string is treated by `parse_manifest` as if the field
were absent — the resulting entry's format is exactly the top-level
format (absent when there is no top-level format; it is the empty string
only when the top-level format is itself the empty string). -/
theorem C10_empty_format_inherits_top_level (mf : ManifestFile)
    (fname : String) (raw : RawManifestEntry)
    (hmem : (fname, raw) ∈ mf.files) (hfmt : raw.format = some "") :
    ∃ e ∈ parse_manifest mf, e.filename = fname ∧ e.format = mf.format := by
  refine ⟨{ filename := fname, version := raw.version, hash := raw.hash,
            format := py_or_str raw.format mf.format, mod := raw.mod,
            metadata := raw.metadata }, ?_, rfl, ?_⟩
  · unfold parse_manifest
    exact mem_sort_by_filename.mpr (List.mem_map.mpr ⟨(fname, raw), hmem, rfl⟩)
  · rw [hfmt]
    rfl

/-- C10 witness: the amended theorem applied to a concrete manifest with
top-level format "4" and a per-file record carrying `format = ""`. -/
theorem C10_witness :
    ∃ e ∈ parse_manifest
        { version := none, format := some "4",
          files := [("a.json",
            { version := none, hash := none, format := some "",
              mod := none, metadata := none })] },
      e.filename = "a.json" ∧ e.format = some "4" := by
  exact C10_empty_format_inherits_top_level _ "a.json"
    { version := none, hash := none, format := some "", mod := none, metadata := none }
    (by decide) rfl

/-! ## Dict lemmas -/

theorem foldl_dict_insert_eq_append {α : Type} (f : ManifestEntry → α) :
    ∀ (l : List ManifestEntry) (d : List (String × α)),
      (∀ e ∈ l, ∀ p ∈ d, p.1 ≠ e.filename) →
      (l.map (fun e => e.filename)).Nodup →
      l.foldl (fun fs e => dict_insert fs e.filename (f e)) d =
        d ++ l.map (fun e => (e.filename, f e))
  | [], d, _, _ => by simp
  | e :: l, d, hfresh, hnd => by
      have hany : d.any (fun p => p.1 == e.filename) = false := by
        rw [List.any_eq_false]
        intro p hp
        simpa using hfresh e (List.mem_cons_self e l) p hp
      have hnd' : e.filename ∉ l.map (fun x => x.filename) ∧
          (l.map (fun x => x.filename)).Nodup := by
        rw [List.map_cons, List.nodup_cons] at hnd
        exact hnd
      have step : dict_insert d e.filename (f e) = d ++ [(e.filename, f e)] := by
        unfold dict_insert
        rw [hany]
        simp
      rw [List.foldl_cons, step,
        foldl_dict_insert_eq_append f l (d ++ [(e.filename, f e)])
          (by
            intro x hx p hp
            rcases List.mem_append.mp hp with hin | hone
            · exact hfresh x (List.mem_cons_of_mem e hx) p hin
            · intro hcontra
              apply hnd'.1
              have hone' : p = (e.filename, f e) := by simpa using hone
              rw [hone'] at hcontra
              rw [show ((e.filename, f e) : String × α).1 = e.filename from rfl] at hcontra
              rw [hcontra]
              exact List.mem_map.mpr ⟨x, hx, rfl⟩)
          hnd'.2]
      simp

theorem write_manifest_files_eq (E : List ManifestEntry) (hu : UniqueFilenames E) :
    (write_manifest E).files =
      E.map (fun e =>
        (e.filename, write_raw_entry (most_common1 (truthy_formats E)) e)) := by
  exact foldl_dict_insert_eq_append
    (write_raw_entry (most_common1 (truthy_formats E)))
    E [] (by intro e _ p hp; simp at hp) hu

/-! ## Claim C1 -/

/-- C1 (counterexample): the list [a.json (format "2"), b.json
(format "2"), c.json (no format)] is sorted with unique filenames and
valid field types, yet writing and re-parsing it yields c.json with
format "2" — the entry whose original format was absent does not keep an
absent effective format, so the round-trip claim fails. -/
theorem C1_counterexample :
    SortedByFilename
      [{ filename := "a.json", format := some "2" },
       { filename := "b.json", format := some "2" },
       { filename := "c.json" }] ∧
    UniqueFilenames
      [{ filename := "a.json", format := some "2" },
       { filename := "b.json", format := some "2" },
       { filename := "c.json" }] ∧
    parse_manifest (write_manifest
      [{ filename := "a.json", format := some "2" },
       { filename := "b.json", format := some "2" },
       { filename := "c.json" }]) ≠
      [{ filename := "a.json", format := some "2" },
       { filename := "b.json", format := some "2" },
       { filename := "c.json" }] ∧
    (parse_manifest (write_manifest
      [{ filename := "a.json", format := some "2" },
       { filename := "b.json", format := some "2" },
       { filename := "c.json" }])).map (fun e => e.format) =
      [some "2", some "2", some "2"] := by
  refine ⟨by decide, by decide, by decide, by decide⟩

/-- C1 (amended): for a filename-sorted, unique-filename entry list
whose formats are absent or non-empty, write-then-parse returns the
same list except that each entry's format is rewritten by the format
promotion: an entry with a format keeps it, and an entry without one
acquires the promoted top-level format. -/
theorem C1_roundtrip_modulo_format_promotion (E : List ManifestEntry)
    (hs : SortedByFilename E) (hu : UniqueFilenames E)
    (hne : ∀ e ∈ E, e.format ≠ some "") :
    parse_manifest (write_manifest E) =
      E.map (fun e =>
        { e with format := match e.format with
                           | none => (write_manifest E).format
                           | some f => some f }) := by
  have hfiles := write_manifest_files_eq E hu
  have hstep : parse_manifest (write_manifest E) =
      sort_by_filename (E.map (fun e =>
        parsed_entry (write_manifest E).format
          (e.filename, write_raw_entry (most_common1 (truthy_formats E)) e))) := by
    simp only [parse_manifest]
    rw [hfiles, List.map_map]
    rfl
  rw [hstep]
  have hsorted' : SortedByFilename (E.map (fun e =>
      parsed_entry (write_manifest E).format
        (e.filename, write_raw_entry (most_common1 (truthy_formats E)) e))) := by
    exact List.pairwise_map.mpr hs
  rw [sort_by_filename_of_sorted hsorted']
  apply List.map_congr_left
  intro e he
  have hfmt := hne e he
  cases e with
  | mk fn ver hsh fmt emod emeta =>
      cases fmt with
      | none =>
          simp [parsed_entry, write_raw_entry, py_or_str]
      | some f =>
          have hf : f ≠ "" := by
            intro hc
            exact hfmt (by rw [hc])
          by_cases hg : some f = most_common1 (truthy_formats E)
          · have hwf : (write_manifest E).format = some f := by
              have hdef : (write_manifest E).format = most_common1 (truthy_formats E) := rfl
              rw [hdef, ← hg]
            simp [parsed_entry, write_raw_entry, py_or_str, hg, hwf]
          · simp [parsed_entry, write_raw_entry, py_or_str, hg, hf]

/-- C1 witness: the amended round-trip theorem applied to the sorted
three-entry list [a.json (format "2"), b.json (format "2"), c.json
(no format)]; the no-format entry comes back with the promoted
format "2". -/
theorem C1_witness :
    parse_manifest (write_manifest
      [{ filename := "a.json", format := some "2" },
       { filename := "b.json", format := some "2" },
       { filename := "c.json" }]) =
      [{ filename := "a.json", format := some "2" },
       { filename := "b.json", format := some "2" },
       { filename := "c.json", format := some "2" }] := by
  rw [C1_roundtrip_modulo_format_promotion
    [{ filename := "a.json", format := some "2" },
     { filename := "b.json", format := some "2" },
     { filename := "c.json" }] (by decide) (by decide) (by decide)]
  decide

/-! ## Lemmas for the diff engine -/

theorem zip_all_beq_iff : ∀ (a b : List ManifestEntry), a.length = b.length →
    (((a.zip b).all fun p => p.1 == p.2) = true ↔ a = b)
  | [], [], _ => by simp
  | [], _ :: _, h => by simp at h
  | _ :: _, [], h => by simp at h
  | x :: xs, y :: ys, h => by
      have hh : xs.length = ys.length := by simpa using h
      simp only [List.zip_cons_cons, List.all_cons, Bool.and_eq_true, beq_iff_eq]
      rw [zip_all_beq_iff xs ys hh]
      constructor
      · rintro ⟨rfl, rfl⟩
        rfl
      · intro heq
        injection heq with h1 h2
        exact ⟨h1, h2⟩

theorem manifest_match_iff_eq (a b : List ManifestEntry) :
    manifest_match a b = true ↔ a = b := by
  unfold manifest_match
  by_cases h : a.length = b.length
  · rw [if_neg (by simpa using h)]
    exact zip_all_beq_iff a b h
  · rw [if_pos (by simpa using h)]
    constructor
    · intro hf
      exact absurd hf (by simp)
    · intro heq
      exact absurd (congrArg List.length heq) h

theorem dict_insert_keys_nodup {α : Type} {d : List (String × α)} {k : String} {v : α}
    (h : (d.map Prod.fst).Nodup) : ((dict_insert d k v).map Prod.fst).Nodup := by
  cases hany : d.any (fun p => p.1 == k) with
  | true =>
      have hkeys : ((d.map (fun p => if p.1 == k then (k, v) else p)).map Prod.fst) =
          d.map Prod.fst := by
        rw [List.map_map]
        apply List.map_congr_left
        intro p _
        by_cases hpk : (p.1 == k) = true
        · have : p.1 = k := by simpa using hpk
          simp [hpk, this]
        · have : ¬ p.1 = k := by simpa using hpk
          simp [hpk, this]
      simp only [dict_insert, hany, if_true]
      rw [hkeys]
      exact h
  | false =>
      have hk : k ∉ d.map Prod.fst := by
        intro hmem
        rcases List.mem_map.mp hmem with ⟨p, hp, hpk⟩
        have := List.any_eq_false.mp hany p hp
        simp [hpk] at this
      simp only [dict_insert, hany, if_false, Bool.false_eq_true]
      rw [List.map_append]
      simp [List.nodup_append, h, hk]

theorem to_file_map_keys_nodup (l : List ManifestEntry) :
    ((to_file_map l).map Prod.fst).Nodup := by
  suffices hgen : ∀ (l : List ManifestEntry) (d : List (String × ManifestEntry)),
      (d.map Prod.fst).Nodup →
      ((l.foldl (fun d e => dict_insert d e.filename e) d).map Prod.fst).Nodup by
    exact hgen l [] (by simp)
  intro l
  induction l with
  | nil =>
      intro d hd
      simpa using hd
  | cons e l ih =>
      intro d hd
      rw [List.foldl_cons]
      exact ih _ (dict_insert_keys_nodup hd)

theorem dict_get_of_mem {α : Type} : ∀ {d : List (String × α)} {p : String × α},
    (d.map Prod.fst).Nodup → p ∈ d → dict_get d p.1 = some p.2 := by
  intro d
  induction d with
  | nil =>
      intro p _ hp
      simp at hp
  | cons q d ih =>
      intro p hnd hp
      rw [List.map_cons, List.nodup_cons] at hnd
      rcases List.mem_cons.mp hp with rfl | hp'
      · simp [dict_get, List.find?_cons_of_pos]
      · have hne : (q.1 == p.1) = false := by
          simp only [beq_eq_false_iff_ne, ne_eq]
          intro hc
          exact hnd.1 (hc ▸ List.mem_map.mpr ⟨p, hp', rfl⟩)
        have hstep : ((q :: d).find? (fun r => r.1 == p.1)) =
            d.find? (fun r => r.1 == p.1) :=
          List.find?_cons_of_neg _ (by simp [hne])
        have hrec := ih hnd.2 hp'
        simp only [dict_get] at hrec ⊢
        rw [hstep]
        exact hrec

theorem dict_get_eq_some {α : Type} {d : List (String × α)} {k : String} {v : α}
    (h : dict_get d k = some v) : ∃ p ∈ d, p.1 = k ∧ p.2 = v := by
  unfold dict_get at h
  rcases Option.map_eq_some'.mp h with ⟨p, hfind, hpv⟩
  refine ⟨p, List.mem_of_find?_eq_some hfind, ?_, hpv⟩
  have := List.find?_some hfind
  simpa using this

theorem to_file_map_eq_map {l : List ManifestEntry} (hu : UniqueFilenames l) :
    to_file_map l = l.map (fun e => (e.filename, e)) := by
  exact foldl_dict_insert_eq_append (fun e => e) l []
    (by intro e _ p hp; simp at hp) hu

theorem diff_entries_self (l : List ManifestEntry) :
    _diff_entries l l = { added := [], removed := [], updated := [] } := by
  have hkeys := to_file_map_keys_nodup l
  unfold _diff_entries
  simp only [ChangeSets.mk.injEq]
  refine ⟨?_, ?_, ?_⟩
  · rw [List.filterMap_eq_nil_iff]
    intro p hp
    simp [dict_get_of_mem hkeys hp]
  · rw [List.filterMap_eq_nil_iff]
    intro p hp
    simp [dict_get_of_mem hkeys hp]
  · rw [List.filterMap_eq_nil_iff]
    intro p hp
    simp [dict_get_of_mem hkeys hp]

theorem strict_pairwise_of_sorted_unique {l : List ManifestEntry}
    (hs : SortedByFilename l) (hu : UniqueFilenames l) :
    l.Pairwise (fun x y => py_str_lt x.filename y.filename = true) := by
  have hne : l.Pairwise (fun x y => x.filename ≠ y.filename) := List.pairwise_map.mp hu
  exact (hs.and hne).imp (by
    rintro a b ⟨h1, h2⟩
    cases hlt : py_str_lt a.filename b.filename
    · exact absurd (py_str_eq_of_not_lt hlt h1) h2
    · rfl)

theorem eq_of_strict_sorted_of_exchange :
    ∀ (a b : List ManifestEntry),
      a.Pairwise (fun x y => py_str_lt x.filename y.filename = true) →
      b.Pairwise (fun x y => py_str_lt x.filename y.filename = true) →
      (∀ e ∈ b, e ∈ a) →
      (∀ e ∈ a, ∃ z ∈ b, z.filename = e.filename) →
      a = b
  | [], [], _, _, _, _ => rfl
  | [], y :: t2, _, _, hba, _ =>
      absurd (hba y (List.mem_cons_self y t2)) (List.not_mem_nil y)
  | x :: t1, [], _, _, _, hab => by
      rcases hab x (List.mem_cons_self x t1) with ⟨z, hz, _⟩
      exact absurd hz (List.not_mem_nil z)
  | x :: t1, y :: t2, ha, hb, hba, hab => by
      have ha' := List.pairwise_cons.mp ha
      have hb' := List.pairwise_cons.mp hb
      have hyx : y = x := by
        rcases List.mem_cons.mp (hba y (List.mem_cons_self y t2)) with h | hy_t1
        · exact h
        · exfalso
          have hxy : py_str_lt x.filename y.filename = true := ha'.1 y hy_t1
          rcases hab x (List.mem_cons_self x t1) with ⟨z, hz, hzfn⟩
          rcases List.mem_cons.mp hz with rfl | hz_t2
          · rw [hzfn] at hxy
            simp [py_str_lt_irrefl] at hxy
          · have hyz : py_str_lt y.filename z.filename = true := hb'.1 z hz_t2
            rw [hzfn] at hyz
            have hasym := py_str_lt_asymm hxy
            simp [hasym] at hyz
      subst hyx
      congr 1
      apply eq_of_strict_sorted_of_exchange t1 t2 ha'.2 hb'.2
      · intro e he2
        rcases List.mem_cons.mp (hba e (List.mem_cons_of_mem _ he2)) with rfl | h
        · exfalso
          have := hb'.1 e he2
          simp [py_str_lt_irrefl] at this
        · exact h
      · intro e he1
        rcases hab e (List.mem_cons_of_mem _ he1) with ⟨z, hz, hzfn⟩
        rcases List.mem_cons.mp hz with rfl | hz2
        · exfalso
          have hxe := ha'.1 e he1
          rw [← hzfn] at hxe
          simp [py_str_lt_irrefl] at hxe
        · exact ⟨z, hz2, hzfn⟩

/-! ## Claim C2 -/

/-- C2: for filename-sorted lists with unique filenames,
`manifest_match` is true exactly when the two lists are equal (equal
length and element-wise equal entries), and that in turn is equivalent
to the diff of the two lists having empty added, removed and updated
buckets. -/
theorem C2_manifest_match_characterization (a b : List ManifestEntry)
    (hsa : SortedByFilename a) (hua : UniqueFilenames a)
    (hsb : SortedByFilename b) (hub : UniqueFilenames b) :
    (manifest_match a b = true ↔ a = b) ∧
    (manifest_match a b = true ↔
      ((_diff_entries a b).added = [] ∧ (_diff_entries a b).removed = [] ∧
       (_diff_entries a b).updated = [])) := by
  refine ⟨manifest_match_iff_eq a b, (manifest_match_iff_eq a b).trans ?_⟩
  constructor
  · rintro rfl
    rw [diff_entries_self]
    exact ⟨rfl, rfl, rfl⟩
  · rintro ⟨hadd, hrem, hupd⟩
    have hma := to_file_map_eq_map hua
    have hmb := to_file_map_eq_map hub
    have hadd' : ∀ p ∈ to_file_map b,
        (if (dict_get (to_file_map a) p.1).isNone then some p.2 else none) = none :=
      List.filterMap_eq_nil_iff.mp hadd
    have hrem' : ∀ p ∈ to_file_map a,
        (if (dict_get (to_file_map b) p.1).isNone then some p.2 else none) = none :=
      List.filterMap_eq_nil_iff.mp hrem
    have hupd' : ∀ p ∈ to_file_map b,
        (match dict_get (to_file_map a) p.1 with
         | some b_entry => if b_entry ≠ p.2 then some (b_entry, p.2) else none
         | none => none) = none :=
      List.filterMap_eq_nil_iff.mp hupd
    have hF1 : ∀ e ∈ b, e ∈ a := by
      intro e he
      have hpe : ((e.filename, e) : String × ManifestEntry) ∈ to_file_map b := by
        rw [hmb]
        exact List.mem_map.mpr ⟨e, he, rfl⟩
      have h1 := hadd' _ hpe
      cases hga : dict_get (to_file_map a) (e.filename) with
      | none =>
          rw [hga] at h1
          simp at h1
      | some x =>
          have h2 := hupd' _ hpe
          rw [hga] at h2
          have hxe : x = e := by
            by_cases hxe' : x = e
            · exact hxe'
            · simp [hxe'] at h2
          rcases dict_get_eq_some hga with ⟨p, hp, hpk, hpv⟩
          rw [hma] at hp
          rcases List.mem_map.mp hp with ⟨q, hq, hq'⟩
          have hq2 : p.2 = q := by rw [← hq']
          rw [← hxe, ← hpv, hq2]
          exact hq
    have hF2 : ∀ e ∈ a, ∃ z ∈ b, z.filename = e.filename := by
      intro e he
      have hpe : ((e.filename, e) : String × ManifestEntry) ∈ to_file_map a := by
        rw [hma]
        exact List.mem_map.mpr ⟨e, he, rfl⟩
      have h1 := hrem' _ hpe
      cases hgb : dict_get (to_file_map b) (e.filename) with
      | none =>
          rw [hgb] at h1
          simp at h1
      | some v =>
          rcases dict_get_eq_some hgb with ⟨p, hp, hpk, hpv⟩
          rw [hmb] at hp
          rcases List.mem_map.mp hp with ⟨q, hq, hq'⟩
          refine ⟨q, hq, ?_⟩
          have hq1 : p.1 = q.filename := by rw [← hq']
          rw [← hq1, hpk]
    exact eq_of_strict_sorted_of_exchange a b
      (strict_pairwise_of_sorted_unique hsa hua)
      (strict_pairwise_of_sorted_unique hsb hub) hF1 hF2

/-- C2 witness: the characterization applied to a concrete two-entry
sorted list compared with itself. -/
theorem C2_witness :
    manifest_match
      [{ filename := "a.json", version := some "1" },
       { filename := "b.json", version := some "2" }]
      [{ filename := "a.json", version := some "1" },
       { filename := "b.json", version := some "2" }] = true ∧
    (_diff_entries
      [{ filename := "a.json", version := some "1" },
       { filename := "b.json", version := some "2" }]
      [{ filename := "a.json", version := some "1" },
       { filename := "b.json", version := some "2" }]).added = [] := by
  have h := C2_manifest_match_characterization
    [{ filename := "a.json", version := some "1" },
     { filename := "b.json", version := some "2" }]
    [{ filename := "a.json", version := some "1" },
     { filename := "b.json", version := some "2" }]
    (by decide) (by decide) (by decide) (by decide)
  exact ⟨h.1.mpr rfl, (h.2.mp (h.1.mpr rfl)).1⟩

/-! ## Lemmas for the format-promotion argmax -/

theorem arg_max_first_eq_none_iff (f : String → Nat) :
    ∀ l : List String, arg_max_first f l = none ↔ l = []
  | [] => by simp [arg_max_first]
  | x :: xs => by
      simp only [arg_max_first]
      cases h : arg_max_first f xs with
      | none => simp
      | some y =>
          by_cases hgt : f y > f x
          · simp [hgt]
          · simp [hgt]

theorem arg_max_first_mem (f : String → Nat) :
    ∀ (l : List String) (v : String), arg_max_first f l = some v → v ∈ l
  | [], v, h => by simp [arg_max_first] at h
  | x :: xs, v, h => by
      cases hrec : arg_max_first f xs with
      | none =>
          simp only [arg_max_first, hrec] at h
          have : x = v := by simpa using h
          rw [← this]
          exact List.mem_cons_self x xs
      | some y =>
          simp only [arg_max_first, hrec] at h
          by_cases hgt : f y > f x
          · rw [if_pos hgt] at h
            have : y = v := by simpa using h
            rw [← this]
            exact List.mem_cons_of_mem x (arg_max_first_mem f xs y hrec)
          · rw [if_neg hgt] at h
            have : x = v := by simpa using h
            rw [← this]
            exact List.mem_cons_self x xs

theorem arg_max_first_count_le (f : String → Nat) :
    ∀ (l : List String) (v : String), arg_max_first f l = some v →
      ∀ w ∈ l, f w ≤ f v
  | [], v, h => by simp [arg_max_first] at h
  | x :: xs, v, h => by
      intro w hw
      cases hrec : arg_max_first f xs with
      | none =>
          have hxs : xs = [] := (arg_max_first_eq_none_iff f xs).mp hrec
          subst hxs
          simp only [arg_max_first, hrec] at h
          have hv : x = v := by simpa using h
          rcases List.mem_cons.mp hw with rfl | hw'
          · rw [hv]
          · simp at hw'
      | some y =>
          simp only [arg_max_first, hrec] at h
          by_cases hgt : f y > f x
          · rw [if_pos hgt] at h
            have hv : y = v := by simpa using h
            subst hv
            rcases List.mem_cons.mp hw with rfl | hw'
            · exact Nat.le_of_lt hgt
            · exact arg_max_first_count_le f xs y hrec w hw'
          · rw [if_neg hgt] at h
            have hv : x = v := by simpa using h
            subst hv
            rcases List.mem_cons.mp hw with rfl | hw'
            · exact Nat.le_refl _
            · exact Nat.le_trans (arg_max_first_count_le f xs y hrec w hw')
                (Nat.le_of_not_lt hgt)

theorem arg_max_first_first_of_ties (f : String → Nat) :
    ∀ (l : List String) (v : String), arg_max_first f l = some v →
      ∀ w ∈ l, f w = f v → l.indexOf v ≤ l.indexOf w
  | [], v, h => by simp [arg_max_first] at h
  | x :: xs, v, h => by
      intro w hw hfw
      cases hrec : arg_max_first f xs with
      | none =>
          simp only [arg_max_first, hrec] at h
          have hv : x = v := by simpa using h
          rw [← hv, List.indexOf_cons_self]
          exact Nat.zero_le _
      | some y =>
          simp only [arg_max_first, hrec] at h
          by_cases hgt : f y > f x
          · rw [if_pos hgt] at h
            have hv : y = v := by simpa using h
            subst hv
            have hvx : y ≠ x := by
              intro hc
              rw [hc] at hgt
              exact lt_irrefl _ hgt
            rcases List.mem_cons.mp hw with rfl | hw'
            · exfalso
              rw [hfw] at hgt
              exact lt_irrefl _ hgt
            · have hwx : w ≠ x := by
                intro hc
                rw [← hfw, hc] at hgt
                exact lt_irrefl _ hgt
              rw [List.indexOf_cons_ne xs hvx.symm, List.indexOf_cons_ne xs hwx.symm]
              exact Nat.succ_le_succ (arg_max_first_first_of_ties f xs y hrec w hw' hfw)
          · rw [if_neg hgt] at h
            have hv : x = v := by simpa using h
            rw [← hv, List.indexOf_cons_self]
            exact Nat.zero_le _

/-! ## counter_keys is first-occurrence deduplication -/

theorem foldl_counter_keys :
    ∀ (l : List String) (acc : List String),
      l.foldl (fun acc s => if acc.contains s then acc else acc ++ [s]) acc =
        acc ++ (dedup_first l).filter (fun s => !acc.contains s)
  | [], acc => by simp [dedup_first]
  | x :: xs, acc => by
      rw [List.foldl_cons]
      cases hc : acc.contains x with
      | true =>
          rw [if_pos rfl, foldl_counter_keys xs acc]
          have hmem : x ∈ acc := by simpa using hc
          congr 1
          simp only [dedup_first]
          rw [List.filter_cons_of_neg (by simp [hmem]), List.filter_filter]
          apply List.filter_congr
          intro s _
          by_cases hsx : s = x
          · subst hsx
            simp [hmem]
          · simp [hsx]
      | false =>
          rw [if_neg Bool.false_ne_true, foldl_counter_keys xs (acc ++ [x])]
          simp only [dedup_first]
          have hnotmem : x ∉ acc := by simpa using hc
          rw [List.filter_cons_of_pos (by simp [hnotmem]), List.filter_filter,
            List.append_assoc]
          congr 1
          simp only [List.singleton_append]
          congr 1
          apply List.filter_congr
          intro s _
          by_cases hsx : s = x
          · subst hsx
            simp
          · simp [hsx]

theorem counter_keys_eq_dedup_first (l : List String) :
    counter_keys l = dedup_first l := by
  have h := foldl_counter_keys l []
  simpa [counter_keys] using h

theorem mem_dedup_first (v : String) :
    ∀ l : List String, v ∈ dedup_first l ↔ v ∈ l
  | [] => Iff.rfl
  | x :: xs => by
      simp only [dedup_first, List.mem_cons, List.mem_filter,
        mem_dedup_first v xs, decide_eq_true_eq]
      by_cases hvx : v = x
      · simp [hvx]
      · simp [hvx]

theorem dedup_first_eq_nil_iff : ∀ l : List String, dedup_first l = [] ↔ l = []
  | [] => by simp [dedup_first]
  | x :: xs => by simp [dedup_first]

/-! ## indexOf transfer lemmas (first-occurrence order) -/

theorem indexOf_le_of_filter {p : String → Bool} :
    ∀ (l : List String) (v w : String), v ∈ l → p v = true → w ∈ l → p w = true →
      (l.filter p).indexOf v ≤ (l.filter p).indexOf w → l.indexOf v ≤ l.indexOf w
  | [], v, w, hv, _, _, _, _ => by simp at hv
  | y :: ys, v, w, hv, hpv, hw, hpw, h => by
      cases hpy : p y with
      | false =>
          have hvy : v ≠ y := by
            intro hc
            rw [hc, hpy] at hpv
            exact Bool.false_ne_true hpv
          have hwy : w ≠ y := by
            intro hc
            rw [hc, hpy] at hpw
            exact Bool.false_ne_true hpw
          have hv' : v ∈ ys := (List.mem_cons.mp hv).resolve_left hvy
          have hw' : w ∈ ys := (List.mem_cons.mp hw).resolve_left hwy
          rw [List.filter_cons_of_neg (by simp [hpy])] at h
          rw [List.indexOf_cons_ne ys hvy.symm, List.indexOf_cons_ne ys hwy.symm]
          exact Nat.succ_le_succ (indexOf_le_of_filter ys v w hv' hpv hw' hpw h)
      | true =>
          rw [List.filter_cons_of_pos hpy] at h
          by_cases hvy : v = y
          · rw [hvy, List.indexOf_cons_self]
            exact Nat.zero_le _
          · by_cases hwy : w = y
            · exfalso
              rw [hwy, List.indexOf_cons_self,
                List.indexOf_cons_ne (ys.filter p) (fun hc => hvy hc.symm)] at h
              exact Nat.not_succ_le_zero _ h
            · have hv' : v ∈ ys := (List.mem_cons.mp hv).resolve_left hvy
              have hw' : w ∈ ys := (List.mem_cons.mp hw).resolve_left hwy
              rw [List.indexOf_cons_ne (ys.filter p) (fun hc => hvy hc.symm),
                List.indexOf_cons_ne (ys.filter p) (fun hc => hwy hc.symm)] at h
              rw [List.indexOf_cons_ne ys (fun hc => hvy hc.symm),
                List.indexOf_cons_ne ys (fun hc => hwy hc.symm)]
              exact Nat.succ_le_succ
                (indexOf_le_of_filter ys v w hv' hpv hw' hpw (Nat.le_of_succ_le_succ h))

theorem indexOf_le_of_dedup_first :
    ∀ (l : List String) (v w : String), v ∈ l → w ∈ l →
      (dedup_first l).indexOf v ≤ (dedup_first l).indexOf w →
      l.indexOf v ≤ l.indexOf w
  | [], v, w, hv, _, _ => by simp at hv
  | x :: xs, v, w, hv, hw, h => by
      by_cases hvx : v = x
      · rw [hvx, List.indexOf_cons_self]
        exact Nat.zero_le _
      · by_cases hwx : w = x
        · exfalso
          simp only [dedup_first] at h
          rw [hwx, List.indexOf_cons_self,
            List.indexOf_cons_ne _ (fun hc => hvx hc.symm)] at h
          exact Nat.not_succ_le_zero _ h
        · have hv' : v ∈ xs := (List.mem_cons.mp hv).resolve_left hvx
          have hw' : w ∈ xs := (List.mem_cons.mp hw).resolve_left hwx
          simp only [dedup_first] at h
          rw [List.indexOf_cons_ne _ (fun hc => hvx hc.symm),
            List.indexOf_cons_ne _ (fun hc => hwx hc.symm)] at h
          have hvd : v ∈ dedup_first xs := (mem_dedup_first v xs).mpr hv'
          have hwd : w ∈ dedup_first xs := (mem_dedup_first w xs).mpr hw'
          have h2 := indexOf_le_of_filter (dedup_first xs) v w hvd
            (by simp [hvx]) hwd (by simp [hwx]) (Nat.le_of_succ_le_succ h)
          rw [List.indexOf_cons_ne xs (fun hc => hvx hc.symm),
            List.indexOf_cons_ne xs (fun hc => hwx hc.symm)]
          exact Nat.succ_le_succ (indexOf_le_of_dedup_first xs v w hv' hw' h2)

/-! ## Claim C6 -/

/-- C6 (counterexample): with entries whose formats are ["", "", "x"],
the most frequent non-null format value is "" (two occurrences), but the
code counts only truthy formats and promotes "x" — refuting the claim's
"most frequent non-null format" rule for empty-string formats. -/
theorem C6_counterexample :
    UniqueFilenames
      [{ filename := "a.json", format := some "" },
       { filename := "b.json", format := some "" },
       { filename := "c.json", format := some "x" }] ∧
    (write_manifest
      [{ filename := "a.json", format := some "" },
       { filename := "b.json", format := some "" },
       { filename := "c.json", format := some "x" }]).format = some "x" ∧
    spec_most_frequent_non_null_format
      [{ filename := "a.json", format := some "" },
       { filename := "b.json", format := some "" },
       { filename := "c.json", format := some "x" }] = some "" ∧
    (write_manifest
      [{ filename := "a.json", format := some "" },
       { filename := "b.json", format := some "" },
       { filename := "c.json", format := some "x" }]).format ≠
      spec_most_frequent_non_null_format
      [{ filename := "a.json", format := some "" },
       { filename := "b.json", format := some "" },
       { filename := "c.json", format := some "x" }] := by
  refine ⟨by decide, by decide, by decide, by decide⟩

/-- C6 (amended): write_manifest promotes the most frequent non-empty
(truthy) format — absent iff no entry has a truthy format; the promoted
value has maximal count among the truthy formats with ties broken by
first occurrence in entry order — and stores for every entry a record
whose format field is omitted exactly when the entry's format equals the
promoted one and kept verbatim otherwise (in particular, entries with no
format get no format key). -/
theorem C6_format_promotion_and_omission (E : List ManifestEntry)
    (hu : UniqueFilenames E) :
    ((write_manifest E).format = none ↔ truthy_formats E = []) ∧
    (∀ v, (write_manifest E).format = some v →
      v ∈ truthy_formats E ∧
      (∀ w ∈ truthy_formats E,
        (truthy_formats E).count w ≤ (truthy_formats E).count v) ∧
      (∀ w ∈ truthy_formats E,
        (truthy_formats E).count w = (truthy_formats E).count v →
        (truthy_formats E).indexOf v ≤ (truthy_formats E).indexOf w)) ∧
    (∀ e ∈ E, dict_get (write_manifest E).files e.filename =
      some { version := e.version, hash := e.hash,
             format := if e.format ≠ (write_manifest E).format then e.format else none,
             mod := e.mod, metadata := e.metadata }) := by
  have hdef : (write_manifest E).format = most_common1 (truthy_formats E) := rfl
  refine ⟨?_, ?_, ?_⟩
  · rw [hdef]
    unfold most_common1
    refine (arg_max_first_eq_none_iff _ _).trans ?_
    rw [counter_keys_eq_dedup_first]
    exact dedup_first_eq_nil_iff _
  · intro v hv
    rw [hdef] at hv
    unfold most_common1 at hv
    have hmemck := arg_max_first_mem _ _ _ hv
    have hmem : v ∈ truthy_formats E := by
      rw [counter_keys_eq_dedup_first] at hmemck
      exact (mem_dedup_first v _).mp hmemck
    refine ⟨hmem, ?_, ?_⟩
    · intro w hw
      have hwck : w ∈ counter_keys (truthy_formats E) := by
        rw [counter_keys_eq_dedup_first]
        exact (mem_dedup_first w _).mpr hw
      exact arg_max_first_count_le _ _ _ hv w hwck
    · intro w hw hcnt
      have hwck : w ∈ counter_keys (truthy_formats E) := by
        rw [counter_keys_eq_dedup_first]
        exact (mem_dedup_first w _).mpr hw
      have h1 := arg_max_first_first_of_ties _ _ _ hv w hwck hcnt
      rw [counter_keys_eq_dedup_first] at h1
      exact indexOf_le_of_dedup_first _ v w hmem hw h1
  · intro e he
    rw [write_manifest_files_eq E hu]
    have hkeys : ((E.map (fun e =>
        (e.filename, write_raw_entry (most_common1 (truthy_formats E)) e))).map
        Prod.fst).Nodup := by
      rw [List.map_map]
      exact hu
    have hp : (e.filename, write_raw_entry (most_common1 (truthy_formats E)) e) ∈
        E.map (fun e =>
          (e.filename, write_raw_entry (most_common1 (truthy_formats E)) e)) :=
      List.mem_map.mpr ⟨e, he, rfl⟩
    exact dict_get_of_mem hkeys hp

/-- C6 witness: the amended theorem applied to entries with formats
["2", "2", "x"]: the differing-format entry keeps its explicit format. -/
theorem C6_witness :
    dict_get (write_manifest
      [{ filename := "a.json", format := some "2" },
       { filename := "b.json", format := some "2" },
       { filename := "c.json", format := some "x" }]).files "c.json" =
      some { version := none, hash := none, format := some "x",
             mod := none, metadata := none } := by
  have h := C6_format_promotion_and_omission
    [{ filename := "a.json", format := some "2" },
     { filename := "b.json", format := some "2" },
     { filename := "c.json", format := some "x" }] (by decide)
  have h3 := h.2.2 { filename := "c.json", format := some "x" } (by decide)
  exact h3.trans (by decide)
